import Mathlib

/-!
Shallow embedding of the two conversion variants of the csv_to_text
repository (src/app.py and src/txt_to_csv.py).  Python strings are
modelled as `List Char`; pandas cells as a tagged `Cell` variant; the
per-run state (the `used_names` set, resp. the `Counter`) is passed
explicitly through the row loop.
-/

/-- Characters treated as whitespace by Python's `str.strip` and `\s`
(restricted to the ASCII range, which is all the sources use). -/
def isWs (c : Char) : Bool :=
  c = ' ' || c = '\t' || c = '\n' || c = '\r' || c = '\x0b' || c = '\x0c'

/-- Convenience: the character list of a string literal. -/
def chars (s : String) : List Char := s.data

/-- `str.strip`, leading part: drop leading whitespace. -/
def stripLead (l : List Char) : List Char := l.dropWhile (fun c => isWs c)

/-- `str.strip`, trailing part: drop trailing whitespace. -/
def stripTrail (l : List Char) : List Char :=
  (l.reverse.dropWhile (fun c => isWs c)).reverse

/-- Python `str.strip`: drop whitespace at both ends. -/
def strip (l : List Char) : List Char := stripTrail (stripLead l)

/-- `re.sub(r"\s+", " ", s)`: collapse each maximal whitespace run to a
single space. -/
def collapseWs : List Char → List Char
  | [] => []
  | [c] => if isWs c then [' '] else [c]
  | c :: d :: cs =>
    if isWs c && isWs d then collapseWs (d :: cs)
    else (if isWs c then ' ' else c) :: collapseWs (d :: cs)

/-- Invariant of `collapseWs` output: every whitespace character is a
plain space and no two whitespace characters are adjacent. -/
def Collapsed (l : List Char) : Prop :=
  (∀ c ∈ l, isWs c = true → c = ' ') ∧
  l.Chain' (fun a b => ¬(isWs a = true ∧ isWs b = true))

/-- Decimal digits of `n`, most significant first; the first argument is
structural fuel (`n` itself is always enough). -/
def natStrAux : Nat → Nat → List Char
  | 0, _ => []
  | fuel + 1, n =>
    if n = 0 then [] else natStrAux fuel (n / 10) ++ [Nat.digitChar (n % 10)]

/-- Python `str(n)` / `f"{n}"` for a natural number. -/
def natStr (n : Nat) : List Char := if n = 0 then ['0'] else natStrAux n n

/-- Python `str(n)` for an integer. -/
def intStr (n : Int) : List Char :=
  if n < 0 then '-' :: natStr n.natAbs else natStr n.natAbs

/-- A pandas cell: a string, a number, a boolean, or missing (NaN). -/
inductive Cell where
  | str (s : List Char)
  | num (n : Int)
  | boolean (b : Bool)
  | missing
deriving DecidableEq

/-- Python `str(cell)` as pandas renders it (`str(float('nan')) = "nan"`). -/
def cellStr : Cell → List Char
  | .str s => s
  | .num n => intStr n
  | .boolean b => if b then chars "True" else chars "False"
  | .missing => chars "nan"

/-- `row.get(c)` / `row[c]` on a Series whose index is `cols` and whose
values are `cells` (in column order). -/
def rowGet (cols : List (List Char)) (cells : List Cell) (c : List Char) :
    Option Cell :=
  List.lookup c (cols.zip cells)

/-- Index of the last occurrence of `c` in `l` (Python `str.rfind`). -/
def lastIdxOf (c : Char) : List Char → Option Nat
  | [] => none
  | x :: xs =>
    match lastIdxOf c xs with
    | some i => some (i + 1)
    | none => if x = c then some 0 else none

/-- `os.path.splitext` (posix): split at the last dot of the basename,
unless every basename character before that dot is itself a dot. -/
def splitExt (p : List Char) : List Char × List Char :=
  let s := match lastIdxOf '/' p with
    | none => 0
    | some i => i + 1
  match lastIdxOf '.' p with
  | none => (p, [])
  | some d =>
    if s ≤ d ∧ ((p.drop s).take (d - s)).any (fun c => c != '.') = true then
      (p.take d, p.drop d)
    else (p, [])

/-- The string `f"{b}_{i}{e}"` used by both collision-renaming schemes. -/
def cand (b e : List Char) (i : Nat) : List Char := b ++ '_' :: (natStr i ++ e)

/-- One archive entry: the resolved (pre-disambiguation) filename, the
emitted (post-disambiguation) filename, and the text payload. -/
structure Entry where
  resolved : List Char
  name : List Char
  text : List Char
deriving DecidableEq

/-- The emitted filenames of a run. -/
def namesOf (es : List Entry) : List (List Char) := es.map (fun e => e.name)

namespace CsvApp

/-- `sanitize_filename` of src/app.py: strip, replace
`[\\/:*?"<>|\r\n\t]` by `_`, collapse whitespace runs, fall back to
`"untitled"` when empty. -/
def illegalApp (c : Char) : Bool :=
  c = '\\' || c = '/' || c = ':' || c = '*' || c = '?' || c = '\"' ||
  c = '<' || c = '>' || c = '|' || c = '\r' || c = '\n' || c = '\t'

def sanitize_filename (l : List Char) : List Char :=
  let s := collapseWs ((strip l).map (fun c => if illegalApp c then '_' else c))
  if s = [] then chars "untitled" else s

/-- `first_string_cell` of src/app.py: first cell that is a string and
non-empty after stripping; the cell value itself is returned. -/
def first_string_cell : List Cell → Option (List Char)
  | [] => none
  | Cell.str s :: rest =>
    if (strip s).isEmpty then first_string_cell rest else some s
  | _ :: rest => first_string_cell rest

/-- The `while True` probe loop of `ensure_unique`, with explicit fuel;
`probeFrom_total` below shows fuel `used.length + 1` always suffices. -/
def probeFrom (b e : List Char) (used : List (List Char)) :
    Nat → Nat → Option (List Char)
  | _, 0 => none
  | i, fuel + 1 =>
    if cand b e i ∈ used then probeFrom b e used (i + 1) fuel
    else some (cand b e i)

/-- `ensure_unique` of src/app.py; returns the chosen name and the
updated `used` set (modelled as a list). -/
def ensure_unique (name : List Char) (used : List (List Char)) :
    List Char × List (List Char) :=
  if name ∈ used then
    match probeFrom (splitExt name).1 (splitExt name).2 used 2
        (used.length + 1) with
    | some c => (c, c :: used)
    | none => (name, used)
  else (name, name :: used)

/-- The raw name built in the conversion loop of src/app.py:
`f"{row[filename_col]}.txt"` when a filename column was found, else
`f"row_{i+1}.txt"`. -/
def raw_name (cols : List (List Char)) (cells : List Cell)
    (fCol : Option (List Char)) (i : Nat) : List Char :=
  match fCol with
  | some c => cellStr ((rowGet cols cells c).getD Cell.missing) ++ chars ".txt"
  | none => chars "row_" ++ natStr (i + 1) ++ chars ".txt"

/-- The filename resolved for a row (before uniqueness handling). -/
def resolve_name (cols : List (List Char)) (cells : List Cell)
    (fCol : Option (List Char)) (i : Nat) : List Char :=
  sanitize_filename (raw_name cols cells fCol i)

/-- The conversion loop of src/app.py over the remaining rows, given the
current 0-based row index and the `used_names` set; returns the entries
and the number of rows iterated. -/
def loop (cols : List (List Char)) (fCol : Option (List Char)) :
    List (List Cell) → Nat → List (List Char) → List Entry × Nat
  | [], _, _ => ([], 0)
  | r :: rs, i, used =>
    match first_string_cell r with
    | none =>
      let rest := loop cols fCol rs (i + 1) used
      (rest.1, rest.2 + 1)
    | some text =>
      let nm := resolve_name cols r fCol i
      let res := ensure_unique nm used
      let rest := loop cols fCol rs (i + 1) res.2
      (⟨nm, res.1, text⟩ :: rest.1, rest.2 + 1)

/-- A whole conversion run of src/app.py. -/
def convert (cols : List (List Char)) (fCol : Option (List Char))
    (rows : List (List Cell)) : List Entry × Nat :=
  loop cols fCol rows 0 []

end CsvApp

namespace CsvTxt

/-- Complement of `INVALID_FILENAME_CHARS` of src/txt_to_csv.py:
`[A-Za-z0-9가-힣 _\-\.\(\)\[\]]`. -/
def allowedTxt (c : Char) : Bool :=
  (65 ≤ c.toNat && c.toNat ≤ 90) || (97 ≤ c.toNat && c.toNat ≤ 122) ||
  (48 ≤ c.toNat && c.toNat ≤ 57) ||
  (0xAC00 ≤ c.toNat && c.toNat ≤ 0xD7A3) ||
  c = ' ' || c = '_' || c = '-' || c = '.' || c = '(' || c = ')' ||
  c = '[' || c = ']'

/-- `sanitize_filename` of src/txt_to_csv.py: strip, collapse whitespace
runs, replace disallowed characters by `_`, fall back to `"untitled"`. -/
def sanitize_filename (l : List Char) : List Char :=
  let s := (collapseWs (strip l)).map (fun c => if allowedTxt c then c else '_')
  if s = [] then chars "untitled" else s

/-- `ensure_txt_suffix` of src/txt_to_csv.py. -/
def ensure_txt_suffix (s : List Char) : List Char :=
  if (chars ".txt").isSuffixOf (s.map Char.toLower) then s
  else s ++ chars ".txt"

/-- `first_nonempty_str` of src/txt_to_csv.py: note it returns the
*stripped* value. -/
def first_nonempty_str : List Cell → Option (List Char)
  | [] => none
  | Cell.str s :: rest =>
    if (strip s).isEmpty then first_nonempty_str rest else some (strip s)
  | _ :: rest => first_nonempty_str rest

/-- The two text-extraction modes of src/txt_to_csv.py. -/
inductive TextMode where
  | named (tc : Option (List Char))
  | firstNonEmpty
deriving DecidableEq

/-- The per-row text selection of the conversion loop (lines 149-153). -/
def select_text (cols : List (List Char)) (mode : TextMode)
    (cells : List Cell) : Option (List Char) :=
  match mode with
  | .named tc =>
    match tc with
    | none => none
    | some c =>
      match rowGet cols cells c with
      | some (Cell.str s) => if (strip s).isEmpty then none else some s
      | _ => none
  | .firstNonEmpty => first_nonempty_str cells

/-- The raw base name of the conversion loop (lines 158-163):
`sanitize_filename(str(row.get(col, "")).strip()) or f"row_{i+1}"`. -/
def raw_base (cols : List (List Char)) (cells : List Cell)
    (fCol : Option (List Char)) (i : Nat) : List Char :=
  match fCol with
  | none => chars "row_" ++ natStr (i + 1)
  | some c =>
    let r := strip (match rowGet cols cells c with
      | some cell => cellStr cell
      | none => [])
    let s := sanitize_filename r
    if s = [] then chars "row_" ++ natStr (i + 1) else s

/-- The filename resolved for a row (before Counter-based renaming):
prefix/suffix concatenation happens *after* sanitization. -/
def resolve_name (pre suf : List Char) (cols : List (List Char))
    (cells : List Cell) (fCol : Option (List Char)) (i : Nat) : List Char :=
  ensure_txt_suffix (pre ++ raw_base cols cells fCol i ++ suf)

/-- Current count of a stem in the `Counter` (modelled as an association
list with newest binding first). -/
def cGet (m : List (List Char × Nat)) (k : List Char) : Nat :=
  (List.lookup k m).getD 0

/-- The Counter-based renaming step (lines 169-172): bump the stem count
and append `_N` when this stem was seen before. -/
def rename (counts : List (List Char × Nat)) (fname : List Char) :
    List Char × List (List Char × Nat) :=
  let p := splitExt fname
  let n := cGet counts p.1 + 1
  ((if n > 1 then cand p.1 p.2 n else fname), (p.1, n) :: counts)

/-- The conversion loop of src/txt_to_csv.py; returns the entries and
the number of rows iterated. -/
def loop (cols : List (List Char)) (mode : TextMode)
    (fCol : Option (List Char)) (pre suf : List Char) :
    List (List Cell) → Nat → List (List Char × Nat) → List Entry × Nat
  | [], _, _ => ([], 0)
  | r :: rs, i, counts =>
    match select_text cols mode r with
    | none =>
      let rest := loop cols mode fCol pre suf rs (i + 1) counts
      (rest.1, rest.2 + 1)
    | some text =>
      if text.isEmpty then
        let rest := loop cols mode fCol pre suf rs (i + 1) counts
        (rest.1, rest.2 + 1)
      else
        let nm := resolve_name pre suf cols r fCol i
        let res := rename counts nm
        let rest := loop cols mode fCol pre suf rs (i + 1) res.2
        (⟨nm, res.1, text⟩ :: rest.1, rest.2 + 1)

/-- A whole conversion run of src/txt_to_csv.py. -/
def convert (cols : List (List Char)) (mode : TextMode)
    (fCol : Option (List Char)) (pre suf : List Char)
    (rows : List (List Cell)) : List Entry × Nat :=
  loop cols mode fCol pre suf rows 0 []

end CsvTxt

/-!  Decimal representation: `natStr` is injective, non-empty, and its
characters are decimal digits. -/

theorem digitChar_toNat : ∀ d, d < 10 → (Nat.digitChar d).toNat = 48 + d := by
  decide

theorem natStrAux_foldl :
    ∀ fuel n a, n ≤ fuel →
      List.foldl (fun a c => a * 10 + (c.toNat - 48)) a (natStrAux fuel n) =
        a * 10 ^ (natStrAux fuel n).length + n := by
  intro fuel
  induction fuel with
  | zero =>
    intro n a h
    have : n = 0 := Nat.le_zero.mp h
    subst this
    simp [natStrAux]
  | succ fuel ih =>
    intro n a h
    by_cases hn : n = 0
    · subst hn; simp [natStrAux]
    · simp only [natStrAux, if_neg hn]
      rw [List.foldl_append]
      have hdiv : n / 10 ≤ fuel := by
        have h1 : n / 10 < n := Nat.div_lt_self (Nat.pos_of_ne_zero hn) (by omega)
        omega
      rw [ih (n / 10) a hdiv]
      have hm : n % 10 < 10 := Nat.mod_lt _ (by omega)
      have hc := digitChar_toNat (n % 10) hm
      simp only [List.foldl_cons, List.foldl_nil, List.length_append,
        List.length_cons, List.length_nil, hc]
      have hsub : 48 + n % 10 - 48 = n % 10 := by omega
      rw [hsub]
      have hpow : 10 ^ ((natStrAux fuel (n / 10)).length + (0 + 1)) =
          10 ^ (natStrAux fuel (n / 10)).length * 10 := by
        simp [Nat.pow_succ]
      rw [hpow]
      have hdm := Nat.div_add_mod n 10
      calc (a * 10 ^ (natStrAux fuel (n / 10)).length + n / 10) * 10 + n % 10
          = a * (10 ^ (natStrAux fuel (n / 10)).length * 10) +
              (10 * (n / 10) + n % 10) := by ring
        _ = a * (10 ^ (natStrAux fuel (n / 10)).length * 10) + n := by rw [hdm]

theorem natStr_val (n : Nat) :
    List.foldl (fun a c => a * 10 + (c.toNat - 48)) 0 (natStr n) = n := by
  by_cases hn : n = 0
  · subst hn; decide
  · simp only [natStr, if_neg hn]
    rw [natStrAux_foldl n n 0 (Nat.le_refl n)]
    simp

theorem natStr_inj : ∀ m n, natStr m = natStr n → m = n := by
  intro m n h
  have hm := natStr_val m
  have hn := natStr_val n
  rw [h] at hm
  omega

theorem natStr_ne_nil (n : Nat) : natStr n ≠ [] := by
  cases n with
  | zero => decide
  | succ m =>
    simp only [natStr, if_neg (Nat.succ_ne_zero m)]
    simp only [natStrAux, if_neg (Nat.succ_ne_zero m)]
    exact List.append_ne_nil_of_right_ne_nil _ (by simp)

theorem mem_natStrAux :
    ∀ fuel n c, c ∈ natStrAux fuel n → ∃ d, d < 10 ∧ c = Nat.digitChar d := by
  intro fuel
  induction fuel with
  | zero => intro n c h; simp [natStrAux] at h
  | succ fuel ih =>
    intro n c h
    by_cases hn : n = 0
    · subst hn; simp [natStrAux] at h
    · simp only [natStrAux, if_neg hn, List.mem_append, List.mem_singleton] at h
      rcases h with h | h
      · exact ih _ _ h
      · exact ⟨n % 10, Nat.mod_lt _ (by omega), h⟩

theorem mem_natStr :
    ∀ n c, c ∈ natStr n → ∃ d, d < 10 ∧ c = Nat.digitChar d := by
  intro n c h
  by_cases hn : n = 0
  · subst hn
    simp only [natStr, if_pos trivial, reduceIte, List.mem_singleton] at h
    exact ⟨0, by omega, by rw [h]; rfl⟩
  · simp only [natStr, if_neg hn] at h
    exact mem_natStrAux _ _ _ h

theorem digitChar_facts :
    ∀ d, d < 10 → isWs (Nat.digitChar d) = false ∧
      CsvApp.illegalApp (Nat.digitChar d) = false ∧
      CsvTxt.allowedTxt (Nat.digitChar d) = true := by
  decide

/-!  Lemmas about `strip`. -/

theorem head?_dropWhile_ws (p : Char → Bool) (l : List Char) :
    ∀ c, (l.dropWhile p).head? = some c → p c = false := by
  induction l with
  | nil => intro c h; simp [List.dropWhile] at h
  | cons x xs ih =>
    intro c h
    rw [List.dropWhile_cons] at h
    split at h
    · exact ih c h
    · next hx =>
      simp only [List.head?_cons, Option.some.injEq] at h
      subst h
      simpa using hx

theorem prefix_head? :
    ∀ {l₁ l₂ : List Char}, l₁ <+: l₂ → l₁ ≠ [] → l₂.head? = l₁.head? := by
  intro l₁ l₂ h hne
  obtain ⟨t, rfl⟩ := h
  cases l₁ with
  | nil => cases hne rfl
  | cons a l => rfl

theorem stripLead_head (l : List Char) :
    ∀ c, (stripLead l).head? = some c → isWs c = false :=
  head?_dropWhile_ws _ l

theorem stripTrail_front (l : List Char) : stripTrail l <+: l := by
  have h := List.dropWhile_suffix (l := l.reverse) (fun c => isWs c)
  have h2 : (l.reverse.dropWhile (fun c => isWs c)).reverse <+:
      l.reverse.reverse := List.reverse_prefix.mpr h
  rwa [List.reverse_reverse] at h2

theorem stripTrail_getLast (l : List Char) :
    ∀ c, (stripTrail l).getLast? = some c → isWs c = false := by
  intro c h
  unfold stripTrail at h
  rw [List.getLast?_reverse] at h
  exact head?_dropWhile_ws _ _ c h

theorem strip_head (l : List Char) :
    ∀ c, (strip l).head? = some c → isWs c = false := by
  intro c h
  unfold strip at h
  have hne : stripTrail (stripLead l) ≠ [] := by
    intro he; rw [he] at h; simp at h
  have heq := prefix_head? (stripTrail_front (stripLead l)) hne
  exact stripLead_head l c (heq.trans h)

theorem strip_getLast (l : List Char) :
    ∀ c, (strip l).getLast? = some c → isWs c = false :=
  stripTrail_getLast (stripLead l)

theorem dropWhile_eq_self_of_head (p : Char → Bool) (l : List Char)
    (h : ∀ c, l.head? = some c → p c = false) : l.dropWhile p = l := by
  cases l with
  | nil => rfl
  | cons x xs =>
    rw [List.dropWhile_cons, if_neg (by simp [h x rfl])]

theorem strip_eq_self (l : List Char)
    (h1 : ∀ c, l.head? = some c → isWs c = false)
    (h2 : ∀ c, l.getLast? = some c → isWs c = false) : strip l = l := by
  unfold strip stripLead stripTrail
  rw [dropWhile_eq_self_of_head _ l h1]
  rw [dropWhile_eq_self_of_head _ l.reverse
    (by intro c hc; rw [List.head?_reverse] at hc; exact h2 c hc)]
  exact List.reverse_reverse l

theorem strip_nil : strip [] = [] := rfl

/-!  Lemmas about `collapseWs`. -/

theorem collapseWs_nil_iff : ∀ l : List Char, collapseWs l = [] ↔ l = [] := by
  intro l
  induction l using collapseWs.induct with
  | case1 => simp [collapseWs]
  | case2 c hc => simp [collapseWs, hc]
  | case3 c hc => simp [collapseWs, hc]
  | case4 c d cs hcd ih => simp [collapseWs, hcd, ih]
  | case5 c d cs hcd ih =>
    have hcd' : (isWs c && isWs d) = false := by simpa using hcd
    simp [collapseWs, hcd']

theorem collapseWs_head (c : Char) (cs : List Char) (hc : isWs c = false) :
    (collapseWs (c :: cs)).head? = some c := by
  cases cs with
  | nil => simp [collapseWs, hc]
  | cons d ds =>
    have hcd : (isWs c && isWs d) = false := by simp [hc]
    simp [collapseWs, hcd, hc]

theorem collapseWs_getLast :
    ∀ l : List Char, (∀ c, l.getLast? = some c → isWs c = false) →
      ∀ c, (collapseWs l).getLast? = some c → isWs c = false := by
  intro l
  induction l using collapseWs.induct with
  | case1 => intro _ c hc; simp [collapseWs] at hc
  | case2 c hc =>
    intro h
    exact absurd (h c (by simp)) (by simp [hc])
  | case3 c hc =>
    intro h c' hc'
    rw [show collapseWs [c] = [c] from by simp [collapseWs, hc]] at hc'
    rw [List.getLast?_singleton, Option.some.injEq] at hc'
    subst hc'
    simpa using hc
  | case4 c d cs hcd ih =>
    intro h c' hc'
    have h' : ∀ x, (d :: cs).getLast? = some x → isWs x = false := by
      intro x hx; apply h; rwa [List.getLast?_cons_cons]
    rw [show collapseWs (c :: d :: cs) = collapseWs (d :: cs) from
      by simp [collapseWs, hcd]] at hc'
    exact ih h' c' hc'
  | case5 c d cs hcd ih =>
    intro h c' hc'
    have h' : ∀ x, (d :: cs).getLast? = some x → isWs x = false := by
      intro x hx; apply h; rwa [List.getLast?_cons_cons]
    have hcd' : (isWs c && isWs d) = false := by simpa using hcd
    rw [show collapseWs (c :: d :: cs) =
        (if isWs c then ' ' else c) :: collapseWs (d :: cs) from
      by simp [collapseWs, hcd']] at hc'
    obtain ⟨y, ys, hys⟩ : ∃ y ys, collapseWs (d :: cs) = y :: ys := by
      cases hcw : collapseWs (d :: cs) with
      | nil => exact absurd ((collapseWs_nil_iff (d :: cs)).mp hcw) (by simp)
      | cons y ys => exact ⟨y, ys, rfl⟩
    rw [hys, List.getLast?_cons_cons] at hc'
    exact ih h' c' (by rw [hys]; exact hc')

theorem mem_collapseWs : ∀ l : List Char, ∀ c ∈ collapseWs l, c ∈ l ∨ c = ' ' := by
  intro l
  induction l using collapseWs.induct with
  | case1 => intro c h; simp [collapseWs] at h
  | case2 c hc =>
    intro x h
    simp only [collapseWs, if_pos hc, List.mem_singleton] at h
    exact Or.inr h
  | case3 c hc =>
    intro x h
    have hc' : isWs c = false := by simpa using hc
    simp only [collapseWs, hc', Bool.false_eq_true, if_false,
      List.mem_singleton] at h
    exact Or.inl (by simp [h])
  | case4 c d cs hcd ih =>
    intro x h
    rw [show collapseWs (c :: d :: cs) = collapseWs (d :: cs) from
      by simp [collapseWs, hcd]] at h
    rcases ih x h with h1 | h1
    · exact Or.inl (List.mem_cons_of_mem _ h1)
    · exact Or.inr h1
  | case5 c d cs hcd ih =>
    intro x h
    have hcd' : (isWs c && isWs d) = false := by simpa using hcd
    rw [show collapseWs (c :: d :: cs) =
        (if isWs c then ' ' else c) :: collapseWs (d :: cs) from
      by simp [collapseWs, hcd']] at h
    rcases List.mem_cons.mp h with h1 | h1
    · by_cases hw : isWs c
      · rw [if_pos hw] at h1; exact Or.inr h1
      · rw [if_neg hw] at h1; exact Or.inl (by simp [h1])
    · rcases ih x h1 with h2 | h2
      · exact Or.inl (List.mem_cons_of_mem _ h2)
      · exact Or.inr h2

theorem ws_mem_collapseWs :
    ∀ l : List Char, ∀ c ∈ collapseWs l, isWs c = true → c = ' ' := by
  intro l
  induction l using collapseWs.induct with
  | case1 => intro c h; simp [collapseWs] at h
  | case2 c hc =>
    intro x h _
    simpa [collapseWs, hc] using h
  | case3 c hc =>
    intro x h hw
    have hc' : isWs c = false := by simpa using hc
    simp only [collapseWs, hc', Bool.false_eq_true, if_false,
      List.mem_singleton] at h
    subst h
    rw [hw] at hc'
    cases hc'
  | case4 c d cs hcd ih =>
    intro x h hw
    rw [show collapseWs (c :: d :: cs) = collapseWs (d :: cs) from
      by simp [collapseWs, hcd]] at h
    exact ih x h hw
  | case5 c d cs hcd ih =>
    intro x h hw
    have hcd' : (isWs c && isWs d) = false := by simpa using hcd
    rw [show collapseWs (c :: d :: cs) =
        (if isWs c then ' ' else c) :: collapseWs (d :: cs) from
      by simp [collapseWs, hcd']] at h
    rcases List.mem_cons.mp h with h1 | h1
    · by_cases hwc : isWs c
      · rw [if_pos hwc] at h1; exact h1
      · rw [if_neg hwc] at h1; subst h1; exact absurd hw (by simpa using hwc)
    · exact ih x h1 hw

theorem chain'_collapseWs :
    ∀ l : List Char,
      (collapseWs l).Chain' (fun a b => ¬(isWs a = true ∧ isWs b = true)) := by
  intro l
  induction l using collapseWs.induct with
  | case1 => simp [collapseWs]
  | case2 c hc => simp [collapseWs, hc]
  | case3 c hc =>
    have hc' : isWs c = false := by simpa using hc
    simp [collapseWs, hc']
  | case4 c d cs hcd ih =>
    rw [show collapseWs (c :: d :: cs) = collapseWs (d :: cs) from
      by simp [collapseWs, hcd]]
    exact ih
  | case5 c d cs hcd ih =>
    have hcd' : (isWs c && isWs d) = false := by simpa using hcd
    rw [show collapseWs (c :: d :: cs) =
        (if isWs c then ' ' else c) :: collapseWs (d :: cs) from
      by simp [collapseWs, hcd']]
    rw [List.chain'_cons']
    refine ⟨?_, ih⟩
    intro y hy
    by_cases hw : isWs c
    · have hd : isWs d = false := by
        rcases Bool.and_eq_false_iff.mp hcd' with h1 | h1
        · rw [hw] at h1; cases h1
        · exact h1
      rw [collapseWs_head d cs hd, Option.mem_def, Option.some.injEq] at hy
      subst hy
      intro hcon
      rw [hcon.2] at hd
      cases hd
    · rw [if_neg hw]
      intro hcon
      exact hw hcon.1

theorem collapsed_collapseWs (l : List Char) : Collapsed (collapseWs l) :=
  ⟨ws_mem_collapseWs l, chain'_collapseWs l⟩

theorem collapseWs_eq_self : ∀ l : List Char, Collapsed l → collapseWs l = l := by
  intro l
  induction l using collapseWs.induct with
  | case1 => intro _; rfl
  | case2 c hc =>
    intro h
    have hce : c = ' ' := h.1 c (by simp) hc
    simp [collapseWs, hc, hce]
  | case3 c hc =>
    intro _
    have hc' : isWs c = false := by simpa using hc
    simp [collapseWs, hc']
  | case4 c d cs hcd ih =>
    intro h
    exfalso
    rcases List.chain'_cons.mp h.2 with ⟨hrel, _⟩
    rcases (by simpa using hcd : isWs c = true ∧ isWs d = true) with ⟨h1, h2⟩
    exact hrel ⟨h1, h2⟩
  | case5 c d cs hcd ih =>
    intro h
    have h' : Collapsed (d :: cs) :=
      ⟨fun x hx => h.1 x (List.mem_cons_of_mem _ hx),
        (List.chain'_cons.mp h.2).2⟩
    have hcd' : (isWs c && isWs d) = false := by simpa using hcd
    have hx0 : (if isWs c then ' ' else c) = c := by
      by_cases hw : isWs c
      · rw [if_pos hw]; exact (h.1 c (List.mem_cons_self _ _) hw).symm
      · rw [if_neg hw]
    rw [show collapseWs (c :: d :: cs) =
        (if isWs c then ' ' else c) :: collapseWs (d :: cs) from
      by simp [collapseWs, hcd']]
    rw [hx0, ih h']

theorem collapseWs_append :
    ∀ u v : List Char, v ≠ [] → (∀ c, v.head? = some c → isWs c = false) →
      ∃ w, collapseWs (u ++ v) = w ++ collapseWs v := by
  intro u
  induction u with
  | nil => intro v _ _; exact ⟨[], rfl⟩
  | cons c u' ih =>
    intro v hv hvh
    cases u' with
    | nil =>
      obtain ⟨d, vs, rfl⟩ : ∃ d vs, v = d :: vs := by
        cases v with
        | nil => cases hv rfl
        | cons d vs => exact ⟨d, vs, rfl⟩
      have hd : isWs d = false := hvh d rfl
      have hcd : (isWs c && isWs d) = false := by simp [hd]
      refine ⟨[if isWs c then ' ' else c], ?_⟩
      simp only [List.cons_append, List.nil_append]
      rw [show collapseWs (c :: d :: vs) =
          (if isWs c then ' ' else c) :: collapseWs (d :: vs) from
        by simp [collapseWs, hcd]]
    | cons e u'' =>
      obtain ⟨w, hw⟩ := ih v hv hvh
      simp only [List.cons_append] at hw ⊢
      by_cases hcd : (isWs c && isWs e) = true
      · refine ⟨w, ?_⟩
        rw [show collapseWs (c :: e :: (u'' ++ v)) =
            collapseWs (e :: (u'' ++ v)) from by simp [collapseWs, hcd]]
        exact hw
      · have hcd' : (isWs c && isWs e) = false := by simpa using hcd
        refine ⟨(if isWs c then ' ' else c) :: w, ?_⟩
        rw [show collapseWs (c :: e :: (u'' ++ v)) =
            (if isWs c then ' ' else c) :: collapseWs (e :: (u'' ++ v)) from
          by simp [collapseWs, hcd']]
        rw [hw]
        rfl

theorem map_eq_self_of (g : Char → Char) :
    ∀ l : List Char, (∀ c ∈ l, g c = c) → l.map g = l := by
  intro l h
  induction l with
  | nil => rfl
  | cons x xs ih =>
    rw [List.map_cons, h x (List.mem_cons_self x xs),
      ih (fun c hc => h c (List.mem_cons_of_mem _ hc))]

/-!  Lemmas about the two sanitizers. -/

theorem appMap_not_illegal (c : Char) :
    CsvApp.illegalApp (if CsvApp.illegalApp c then '_' else c) = false := by
  by_cases h : CsvApp.illegalApp c
  · rw [if_pos h]; decide
  · rw [if_neg h]; simpa using h

theorem appMap_nonws (c : Char) (h : isWs c = false) :
    isWs (if CsvApp.illegalApp c then '_' else c) = false := by
  by_cases hc : CsvApp.illegalApp c
  · rw [if_pos hc]; decide
  · rw [if_neg hc]; exact h

theorem appMap_fix (c : Char) (h : CsvApp.illegalApp c = false) :
    (if CsvApp.illegalApp c then '_' else c) = c := by
  rw [if_neg (by simp [h])]

theorem sanitizeApp_def (l : List Char) :
    CsvApp.sanitize_filename l =
      if collapseWs ((strip l).map
          (fun c => if CsvApp.illegalApp c then '_' else c)) = []
      then chars "untitled"
      else collapseWs ((strip l).map
          (fun c => if CsvApp.illegalApp c then '_' else c)) := rfl

theorem sanitizeApp_ne_nil (l : List Char) : CsvApp.sanitize_filename l ≠ [] := by
  rw [sanitizeApp_def]
  split
  · decide
  · next h => exact h

theorem mem_sanitizeApp_inner (l : List Char) :
    ∀ c ∈ collapseWs ((strip l).map
        (fun c => if CsvApp.illegalApp c then '_' else c)),
      CsvApp.illegalApp c = false := by
  intro c hc
  rcases mem_collapseWs _ c hc with h | h
  · rcases List.mem_map.mp h with ⟨x, _, rfl⟩
    exact appMap_not_illegal x
  · subst h; decide

theorem mem_sanitizeApp (l : List Char) :
    ∀ c ∈ CsvApp.sanitize_filename l, CsvApp.illegalApp c = false := by
  intro c hc
  rw [sanitizeApp_def] at hc
  split at hc
  · exact (by decide : ∀ x ∈ chars "untitled", CsvApp.illegalApp x = false) c hc
  · exact mem_sanitizeApp_inner l c hc

theorem sanitizeApp_inner_head (l : List Char) :
    ∀ c, (collapseWs ((strip l).map
        (fun c => if CsvApp.illegalApp c then '_' else c))).head? = some c →
      isWs c = false := by
  intro c h
  cases hs : (strip l).map (fun c => if CsvApp.illegalApp c then '_' else c) with
  | nil => rw [hs] at h; simp [collapseWs] at h
  | cons x xs =>
    have hx : isWs x = false := by
      cases hsl : strip l with
      | nil => rw [hsl] at hs; simp at hs
      | cons y ys =>
        rw [hsl, List.map_cons, List.cons.injEq] at hs
        have hy : isWs y = false := strip_head l y (by rw [hsl]; rfl)
        rw [← hs.1]
        exact appMap_nonws y hy
    rw [hs, collapseWs_head x xs hx, Option.some.injEq] at h
    rw [← h]
    exact hx

theorem sanitizeApp_inner_getLast (l : List Char) :
    ∀ c, (collapseWs ((strip l).map
        (fun c => if CsvApp.illegalApp c then '_' else c))).getLast? = some c →
      isWs c = false := by
  apply collapseWs_getLast
  intro x hx
  rw [List.getLast?_map] at hx
  rcases Option.map_eq_some'.mp hx with ⟨y, hy, rfl⟩
  exact appMap_nonws y (strip_getLast l y hy)

theorem sanitizeApp_fixes (t : List Char) (hne : t ≠ [])
    (hhead : ∀ c, t.head? = some c → isWs c = false)
    (hlast : ∀ c, t.getLast? = some c → isWs c = false)
    (hmem : ∀ c ∈ t, CsvApp.illegalApp c = false)
    (hcoll : Collapsed t) : CsvApp.sanitize_filename t = t := by
  have hstrip : strip t = t := strip_eq_self t hhead hlast
  have hmap : (strip t).map (fun c => if CsvApp.illegalApp c then '_' else c) = t := by
    rw [hstrip]
    exact map_eq_self_of _ t (fun c hc => appMap_fix c (hmem c hc))
  rw [sanitizeApp_def, hmap, collapseWs_eq_self t hcoll, if_neg hne]

theorem sanitizeApp_idem (l : List Char) :
    CsvApp.sanitize_filename (CsvApp.sanitize_filename l) =
      CsvApp.sanitize_filename l := by
  by_cases hin : collapseWs ((strip l).map
      (fun c => if CsvApp.illegalApp c then '_' else c)) = []
  · have h1 : CsvApp.sanitize_filename l = chars "untitled" := by
      rw [sanitizeApp_def, if_pos hin]
    rw [h1]; decide
  · have h1 : CsvApp.sanitize_filename l = collapseWs ((strip l).map
        (fun c => if CsvApp.illegalApp c then '_' else c)) := by
      rw [sanitizeApp_def, if_neg hin]
    rw [h1]
    exact sanitizeApp_fixes _ hin (sanitizeApp_inner_head l)
      (sanitizeApp_inner_getLast l) (mem_sanitizeApp_inner l)
      (collapsed_collapseWs _)

theorem txtMap_allowed (c : Char) :
    CsvTxt.allowedTxt (if CsvTxt.allowedTxt c then c else '_') = true := by
  by_cases h : CsvTxt.allowedTxt c
  · rw [if_pos h]; exact h
  · rw [if_neg h]; decide

theorem txtMap_fix (c : Char) (h : CsvTxt.allowedTxt c = true) :
    (if CsvTxt.allowedTxt c then c else '_') = c := if_pos h

theorem txtMap_nonws (c : Char) (h : isWs c = false) :
    isWs (if CsvTxt.allowedTxt c then c else '_') = false := by
  by_cases hc : CsvTxt.allowedTxt c
  · rw [if_pos hc]; exact h
  · rw [if_neg hc]; decide

theorem txtMap_ws_eq (c : Char) :
    isWs (if CsvTxt.allowedTxt c then c else '_') = true →
      (if CsvTxt.allowedTxt c then c else '_') = c ∧ isWs c = true := by
  by_cases hc : CsvTxt.allowedTxt c
  · rw [if_pos hc]; exact fun h => ⟨rfl, h⟩
  · rw [if_neg hc]; intro h; cases h

theorem sanitizeTxt_def (l : List Char) :
    CsvTxt.sanitize_filename l =
      if (collapseWs (strip l)).map
          (fun c => if CsvTxt.allowedTxt c then c else '_') = []
      then chars "untitled"
      else (collapseWs (strip l)).map
          (fun c => if CsvTxt.allowedTxt c then c else '_') := rfl

theorem sanitizeTxt_ne_nil (l : List Char) : CsvTxt.sanitize_filename l ≠ [] := by
  rw [sanitizeTxt_def]
  split
  · decide
  · next h => exact h

theorem mem_sanitizeTxt (l : List Char) :
    ∀ c ∈ CsvTxt.sanitize_filename l, CsvTxt.allowedTxt c = true := by
  intro c hc
  rw [sanitizeTxt_def] at hc
  split at hc
  · exact (by decide : ∀ x ∈ chars "untitled", CsvTxt.allowedTxt x = true) c hc
  · rcases List.mem_map.mp hc with ⟨x, _, rfl⟩
    exact txtMap_allowed x

theorem collapseWs_strip_head (l : List Char) :
    ∀ c, (collapseWs (strip l)).head? = some c → isWs c = false := by
  intro c h
  cases hsl : strip l with
  | nil => rw [hsl] at h; simp [collapseWs] at h
  | cons y ys =>
    have hy : isWs y = false := strip_head l y (by rw [hsl]; rfl)
    rw [hsl, collapseWs_head y ys hy, Option.some.injEq] at h
    rw [← h]
    exact hy

theorem collapseWs_strip_getLast (l : List Char) :
    ∀ c, (collapseWs (strip l)).getLast? = some c → isWs c = false :=
  collapseWs_getLast (strip l) (strip_getLast l)

theorem collapsed_map_txt (u : List Char) (h : Collapsed u) :
    Collapsed (u.map (fun c => if CsvTxt.allowedTxt c then c else '_')) := by
  constructor
  · intro c hc hw
    rcases List.mem_map.mp hc with ⟨x, hx, rfl⟩
    rcases txtMap_ws_eq x hw with ⟨he, hwx⟩
    rw [he, h.1 x hx hwx]
  · rw [List.chain'_map]
    refine h.2.imp ?_
    intro a b hab hcon
    exact hab ⟨(txtMap_ws_eq a hcon.1).2, (txtMap_ws_eq b hcon.2).2⟩

theorem sanitizeTxt_fixes (t : List Char) (hne : t ≠ [])
    (hhead : ∀ c, t.head? = some c → isWs c = false)
    (hlast : ∀ c, t.getLast? = some c → isWs c = false)
    (hmem : ∀ c ∈ t, CsvTxt.allowedTxt c = true)
    (hcoll : Collapsed t) : CsvTxt.sanitize_filename t = t := by
  have hstrip : strip t = t := strip_eq_self t hhead hlast
  have hmap : t.map (fun c => if CsvTxt.allowedTxt c then c else '_') = t :=
    map_eq_self_of _ t (fun c hc => txtMap_fix c (hmem c hc))
  rw [sanitizeTxt_def, hstrip, collapseWs_eq_self t hcoll, hmap, if_neg hne]

theorem sanitizeTxt_idem (l : List Char) :
    CsvTxt.sanitize_filename (CsvTxt.sanitize_filename l) =
      CsvTxt.sanitize_filename l := by
  by_cases hin : (collapseWs (strip l)).map
      (fun c => if CsvTxt.allowedTxt c then c else '_') = []
  · have h1 : CsvTxt.sanitize_filename l = chars "untitled" := by
      rw [sanitizeTxt_def, if_pos hin]
    rw [h1]; decide
  · have h1 : CsvTxt.sanitize_filename l = (collapseWs (strip l)).map
        (fun c => if CsvTxt.allowedTxt c then c else '_') := by
      rw [sanitizeTxt_def, if_neg hin]
    rw [h1]
    refine sanitizeTxt_fixes _ hin ?_ ?_ ?_ ?_
    · intro c h
      rw [List.head?_map] at h
      rcases Option.map_eq_some'.mp h with ⟨y, hy, rfl⟩
      exact txtMap_nonws y (collapseWs_strip_head l y hy)
    · intro c h
      rw [List.getLast?_map] at h
      rcases Option.map_eq_some'.mp h with ⟨y, hy, rfl⟩
      exact txtMap_nonws y (collapseWs_strip_getLast l y hy)
    · intro c hc
      rcases List.mem_map.mp hc with ⟨x, _, rfl⟩
      exact txtMap_allowed x
    · exact collapsed_map_txt _ (collapsed_collapseWs _)

/-!  Lemmas about `splitExt`, `cand`, and the two renaming schemes. -/

theorem splitExt_join (p : List Char) : (splitExt p).1 ++ (splitExt p).2 = p := by
  unfold splitExt
  cases hd : lastIdxOf '.' p with
  | none => simp
  | some d =>
    simp only []
    split
    · exact List.take_append_drop d p
    · simp

theorem cand_inj (b e : List Char) : ∀ i j, cand b e i = cand b e j → i = j := by
  intro i j h
  unfold cand at h
  have h1 := List.append_cancel_left h
  injection h1 with _ h2
  exact natStr_inj _ _ (List.append_cancel_right h2)

theorem cand_length (b e : List Char) (i : Nat) :
    (cand b e i).length = b.length + e.length + (natStr i).length + 1 := by
  unfold cand
  simp [List.length_append]
  omega

theorem cand_ne_of_join (name b e : List Char) (hbe : b ++ e = name) (i : Nat) :
    cand b e i ≠ name := by
  intro h
  have hl := congrArg List.length h
  rw [cand_length, ← hbe, List.length_append] at hl
  have hpos : 0 < (natStr i).length := List.length_pos.mpr (natStr_ne_nil i)
  omega

theorem probeFrom_some_spec (b e : List Char) (used : List (List Char)) :
    ∀ fuel i c, CsvApp.probeFrom b e used i fuel = some c →
      c ∉ used ∧ ∃ j, i ≤ j ∧ c = cand b e j := by
  intro fuel
  induction fuel with
  | zero => intro i c h; simp [CsvApp.probeFrom] at h
  | succ fuel ih =>
    intro i c h
    simp only [CsvApp.probeFrom] at h
    split at h
    · rcases ih _ _ h with ⟨h1, j, hj, rfl⟩
      exact ⟨h1, j, by omega, rfl⟩
    · next hmem =>
      injection h with h
      subst h
      exact ⟨hmem, i, Nat.le_refl i, rfl⟩

theorem probeFrom_total (b e : List Char) (used : List (List Char)) :
    ∀ fuel i, (∃ j, i ≤ j ∧ j < i + fuel ∧ cand b e j ∉ used) →
      ∃ c, CsvApp.probeFrom b e used i fuel = some c := by
  intro fuel
  induction fuel with
  | zero =>
    intro i h
    rcases h with ⟨j, h1, h2, _⟩
    omega
  | succ fuel ih =>
    intro i h
    rcases h with ⟨j, h1, h2, h3⟩
    simp only [CsvApp.probeFrom]
    split
    · next hmem =>
      apply ih
      refine ⟨j, ?_, by omega, h3⟩
      rcases Nat.eq_or_lt_of_le h1 with rfl | hlt
      · exact absurd hmem h3
      · omega
    · exact ⟨_, rfl⟩

theorem exists_cand_not_mem (b e : List Char) (used : List (List Char)) (i0 : Nat) :
    ∃ j, i0 ≤ j ∧ j < i0 + (used.length + 1) ∧ cand b e j ∉ used := by
  by_contra hcon
  push_neg at hcon
  have hsub : (Finset.range (used.length + 1)).image (fun k => cand b e (i0 + k)) ⊆
      used.toFinset := by
    intro x hx
    rcases Finset.mem_image.mp hx with ⟨k, hk, rfl⟩
    rw [List.mem_toFinset]
    exact hcon _ (by omega) (by have := Finset.mem_range.mp hk; omega)
  have hinj : Set.InjOn (fun k => cand b e (i0 + k))
      ↑(Finset.range (used.length + 1)) := by
    intro a _ a' _ hab
    have := cand_inj b e _ _ hab
    omega
  have h1 := Finset.card_image_of_injOn hinj
  have h2 := Finset.card_le_card hsub
  have h3 := List.toFinset_card_le used
  rw [h1, Finset.card_range] at h2
  omega

theorem ensure_unique_not_mem (name : List Char) (used : List (List Char)) :
    (CsvApp.ensure_unique name used).1 ∉ used := by
  by_cases h : name ∈ used
  · obtain ⟨c, hc⟩ := probeFrom_total (splitExt name).1 (splitExt name).2 used
      (used.length + 1) 2 (exists_cand_not_mem _ _ used 2)
    simp only [CsvApp.ensure_unique, if_pos h, hc]
    exact (probeFrom_some_spec _ _ used _ _ _ hc).1
  · simp only [CsvApp.ensure_unique, if_neg h]
    exact h

theorem ensure_unique_eq_iff (name : List Char) (used : List (List Char)) :
    (CsvApp.ensure_unique name used).1 = name ↔ name ∉ used := by
  constructor
  · intro h
    by_contra hmem
    obtain ⟨c, hc⟩ := probeFrom_total (splitExt name).1 (splitExt name).2 used
      (used.length + 1) 2 (exists_cand_not_mem _ _ used 2)
    rcases probeFrom_some_spec _ _ used _ _ _ hc with ⟨_, j, _, rfl⟩
    have hres : (CsvApp.ensure_unique name used).1 =
        cand (splitExt name).1 (splitExt name).2 j := by
      simp only [CsvApp.ensure_unique, if_pos hmem, hc]
    rw [hres] at h
    exact cand_ne_of_join name _ _ (splitExt_join name) j h
  · intro h
    simp only [CsvApp.ensure_unique, if_neg h]

theorem rename_eq_iff (counts : List (List Char × Nat)) (fname : List Char) :
    (CsvTxt.rename counts fname).1 = fname ↔
      CsvTxt.cGet counts (splitExt fname).1 = 0 := by
  constructor
  · intro h
    by_contra hne
    have hgt : CsvTxt.cGet counts (splitExt fname).1 + 1 > 1 := by omega
    have hres : (CsvTxt.rename counts fname).1 =
        cand (splitExt fname).1 (splitExt fname).2
          (CsvTxt.cGet counts (splitExt fname).1 + 1) := by
      simp only [CsvTxt.rename, if_pos hgt]
    rw [hres] at h
    exact cand_ne_of_join fname _ _ (splitExt_join fname) _ h
  · intro h
    simp [CsvTxt.rename, h]

/-!  Lemmas about the `.txt` extension handling. -/

theorem isSuffixOf_append_self (w t : List Char) : t.isSuffixOf (w ++ t) = true :=
  List.isSuffixOf_iff_suffix.mpr (List.suffix_append w t)

theorem lower_txt : (chars ".txt").map Char.toLower = chars ".txt" := by decide

theorem ensure_txt_skip (s : List Char)
    (h : (chars ".txt").isSuffixOf (s.map Char.toLower) = true) :
    CsvTxt.ensure_txt_suffix s = s := by
  unfold CsvTxt.ensure_txt_suffix
  rw [if_pos h]

theorem ensure_txt_append (s : List Char)
    (h : (chars ".txt").isSuffixOf (s.map Char.toLower) = false) :
    CsvTxt.ensure_txt_suffix s = s ++ chars ".txt" := by
  unfold CsvTxt.ensure_txt_suffix
  rw [if_neg (by simp [h])]

theorem ensure_txt_endswith (s : List Char) :
    (chars ".txt").isSuffixOf
      ((CsvTxt.ensure_txt_suffix s).map Char.toLower) = true := by
  by_cases h : (chars ".txt").isSuffixOf (s.map Char.toLower) = true
  · rw [ensure_txt_skip s h]; exact h
  · have h' : (chars ".txt").isSuffixOf (s.map Char.toLower) = false :=
      Bool.eq_false_iff.mpr h
    rw [ensure_txt_append s h', List.map_append, lower_txt]
    exact isSuffixOf_append_self _ _

theorem ensure_txt_ne_nil (s : List Char) : CsvTxt.ensure_txt_suffix s ≠ [] := by
  by_cases h : (chars ".txt").isSuffixOf (s.map Char.toLower) = true
  · rw [ensure_txt_skip s h]
    intro he
    rw [he] at h
    exact absurd h (by decide)
  · rw [ensure_txt_append s (Bool.eq_false_iff.mpr h)]
    exact List.append_ne_nil_of_right_ne_nil _ (by decide)

theorem mem_ensure_txt (s : List Char) :
    ∀ c ∈ CsvTxt.ensure_txt_suffix s, c ∈ s ∨ c ∈ chars ".txt" := by
  intro c hc
  by_cases h : (chars ".txt").isSuffixOf (s.map Char.toLower) = true
  · rw [ensure_txt_skip s h] at hc; exact Or.inl hc
  · rw [ensure_txt_append s (Bool.eq_false_iff.mpr h)] at hc
    exact List.mem_append.mp hc

theorem txt_head_nonws : ∀ c, (chars ".txt").head? = some c → isWs c = false := by
  intro c h
  have h0 : (chars ".txt").head? = some '.' := by decide
  rw [h0, Option.some.injEq] at h
  subst h
  decide

theorem dropWhile_append_nonws (p : Char → Bool) :
    ∀ (u v : List Char), (∀ c, v.head? = some c → p c = false) →
      ∃ w, List.dropWhile p (u ++ v) = w ++ v := by
  intro u
  induction u with
  | nil =>
    intro v hv
    exact ⟨[], dropWhile_eq_self_of_head p v hv⟩
  | cons x u' ih =>
    intro v hv
    rw [List.cons_append, List.dropWhile_cons]
    split
    · exact ih v hv
    · exact ⟨x :: u', rfl⟩

theorem stripTrail_eq_self (l : List Char)
    (h : ∀ c, l.getLast? = some c → isWs c = false) : stripTrail l = l := by
  unfold stripTrail
  rw [dropWhile_eq_self_of_head _ l.reverse
    (by intro c hc; rw [List.head?_reverse] at hc; exact h c hc)]
  exact List.reverse_reverse l

theorem getLast?_append_txt (w : List Char) :
    (w ++ chars ".txt").getLast? = some 't' := by
  rw [← List.head?_reverse, List.reverse_append]
  have h : (chars ".txt").reverse = 't' :: chars "xt." := by decide
  rw [h, List.cons_append]
  rfl

theorem stripTrail_append_txt (w : List Char) :
    stripTrail (w ++ chars ".txt") = w ++ chars ".txt" := by
  apply stripTrail_eq_self
  intro c h
  rw [getLast?_append_txt, Option.some.injEq] at h
  subst h
  decide

theorem sanitizeApp_append_txt (u : List Char) :
    ∃ w, CsvApp.sanitize_filename (u ++ chars ".txt") = w ++ chars ".txt" := by
  obtain ⟨w1, hw1⟩ := dropWhile_append_nonws _ u (chars ".txt") txt_head_nonws
  have hstrip : strip (u ++ chars ".txt") = w1 ++ chars ".txt" := by
    unfold strip stripLead
    rw [hw1]
    exact stripTrail_append_txt w1
  have hmap : (w1 ++ chars ".txt").map
      (fun c => if CsvApp.illegalApp c then '_' else c) =
      (w1.map (fun c => if CsvApp.illegalApp c then '_' else c)) ++
        chars ".txt" := by
    rw [List.map_append,
      show (chars ".txt").map (fun c => if CsvApp.illegalApp c then '_' else c) =
        chars ".txt" from by decide]
  obtain ⟨w3, hw3⟩ := collapseWs_append
    (w1.map (fun c => if CsvApp.illegalApp c then '_' else c)) (chars ".txt")
    (by decide) txt_head_nonws
  refine ⟨w3, ?_⟩
  rw [sanitizeApp_def, hstrip, hmap, hw3,
    show collapseWs (chars ".txt") = chars ".txt" from by decide,
    if_neg (List.append_ne_nil_of_right_ne_nil _ (by decide))]

theorem resolveApp_endswith (cols : List (List Char)) (cells : List Cell)
    (c : List Char) (i : Nat) :
    (chars ".txt").isSuffixOf
      ((CsvApp.resolve_name cols cells (some c) i).map Char.toLower) = true := by
  have hrn : CsvApp.raw_name cols cells (some c) i =
      cellStr ((rowGet cols cells c).getD Cell.missing) ++ chars ".txt" := rfl
  obtain ⟨w, hw⟩ :=
    sanitizeApp_append_txt (cellStr ((rowGet cols cells c).getD Cell.missing))
  unfold CsvApp.resolve_name
  rw [hrn, hw, List.map_append, lower_txt]
  exact isSuffixOf_append_self _ _

/-!  Lemmas about the two text selectors. -/

theorem first_nonempty_eq_map_strip :
    ∀ cells : List Cell,
      CsvTxt.first_nonempty_str cells =
        (CsvApp.first_string_cell cells).map strip := by
  intro cells
  induction cells with
  | nil => rfl
  | cons c rest ih =>
    cases c with
    | str s =>
      by_cases h : (strip s).isEmpty
      · simpa [CsvTxt.first_nonempty_str, CsvApp.first_string_cell, h] using ih
      · simp [CsvTxt.first_nonempty_str, CsvApp.first_string_cell, h]
    | num n =>
      simpa [CsvTxt.first_nonempty_str, CsvApp.first_string_cell] using ih
    | boolean b =>
      simpa [CsvTxt.first_nonempty_str, CsvApp.first_string_cell] using ih
    | missing =>
      simpa [CsvTxt.first_nonempty_str, CsvApp.first_string_cell] using ih

theorem first_string_cell_none_iff :
    ∀ cells : List Cell,
      CsvApp.first_string_cell cells = none ↔
        ∀ c ∈ cells, ∀ s, c = Cell.str s → strip s = [] := by
  intro cells
  induction cells with
  | nil => simp [CsvApp.first_string_cell]
  | cons c rest ih =>
    cases c with
    | str s =>
      by_cases h : (strip s).isEmpty
      · constructor
        · intro h1 c hc s' hs'
          rcases List.mem_cons.mp hc with rfl | hmem
          · injection hs' with hss
            subst hss
            exact List.isEmpty_iff.mp h
          · refine (ih.mp ?_) c hmem s' hs'
            simpa [CsvApp.first_string_cell, h] using h1
        · intro h1
          simp only [CsvApp.first_string_cell, if_pos h]
          exact ih.mpr (fun c hc s' hs' => h1 c (List.mem_cons_of_mem _ hc) s' hs')
      · constructor
        · intro h1
          simp [CsvApp.first_string_cell, h] at h1
        · intro h1
          exfalso
          exact h (by simp [h1 (Cell.str s) (List.mem_cons_self _ _) s rfl])
    | num n =>
      simp only [CsvApp.first_string_cell]
      rw [ih]
      constructor
      · intro h1 c hc s' hs'
        rcases List.mem_cons.mp hc with rfl | hmem
        · cases hs'
        · exact h1 c hmem s' hs'
      · intro h1 c hc s' hs'
        exact h1 c (List.mem_cons_of_mem _ hc) s' hs'
    | boolean b =>
      simp only [CsvApp.first_string_cell]
      rw [ih]
      constructor
      · intro h1 c hc s' hs'
        rcases List.mem_cons.mp hc with rfl | hmem
        · cases hs'
        · exact h1 c hmem s' hs'
      · intro h1 c hc s' hs'
        exact h1 c (List.mem_cons_of_mem _ hc) s' hs'
    | missing =>
      simp only [CsvApp.first_string_cell]
      rw [ih]
      constructor
      · intro h1 c hc s' hs'
        rcases List.mem_cons.mp hc with rfl | hmem
        · cases hs'
        · exact h1 c hmem s' hs'
      · intro h1 c hc s' hs'
        exact h1 c (List.mem_cons_of_mem _ hc) s' hs'

theorem first_string_cell_some :
    ∀ (cells : List Cell) (s : List Char),
      CsvApp.first_string_cell cells = some s →
        strip s ≠ [] ∧ ∃ l₁ l₂, cells = l₁ ++ Cell.str s :: l₂ ∧
          ∀ c ∈ l₁, ∀ t, c = Cell.str t → strip t = [] := by
  intro cells
  induction cells with
  | nil => intro s h; simp [CsvApp.first_string_cell] at h
  | cons c rest ih =>
    intro s h
    cases c with
    | str s' =>
      by_cases he : (strip s').isEmpty
      · have h' : CsvApp.first_string_cell rest = some s := by
          simpa [CsvApp.first_string_cell, he] using h
        obtain ⟨h1, l₁, l₂, heq, h2⟩ := ih s h'
        refine ⟨h1, Cell.str s' :: l₁, l₂, by rw [List.cons_append, ← heq], ?_⟩
        intro c hc t ht
        rcases List.mem_cons.mp hc with rfl | hmem
        · injection ht with h3
          subst h3
          exact List.isEmpty_iff.mp he
        · exact h2 c hmem t ht
      · have hs : s' = s := by
          simpa [CsvApp.first_string_cell, he] using h
        subst hs
        refine ⟨fun hnil => he (by simp [hnil]), [], rest, rfl, by simp⟩
    | num n =>
      have h' : CsvApp.first_string_cell rest = some s := by
        simpa [CsvApp.first_string_cell] using h
      obtain ⟨h1, l₁, l₂, heq, h2⟩ := ih s h'
      refine ⟨h1, Cell.num n :: l₁, l₂, by rw [List.cons_append, ← heq], ?_⟩
      intro c hc t ht
      rcases List.mem_cons.mp hc with rfl | hmem
      · cases ht
      · exact h2 c hmem t ht
    | boolean b =>
      have h' : CsvApp.first_string_cell rest = some s := by
        simpa [CsvApp.first_string_cell] using h
      obtain ⟨h1, l₁, l₂, heq, h2⟩ := ih s h'
      refine ⟨h1, Cell.boolean b :: l₁, l₂, by rw [List.cons_append, ← heq], ?_⟩
      intro c hc t ht
      rcases List.mem_cons.mp hc with rfl | hmem
      · cases ht
      · exact h2 c hmem t ht
    | missing =>
      have h' : CsvApp.first_string_cell rest = some s := by
        simpa [CsvApp.first_string_cell] using h
      obtain ⟨h1, l₁, l₂, heq, h2⟩ := ih s h'
      refine ⟨h1, Cell.missing :: l₁, l₂, by rw [List.cons_append, ← heq], ?_⟩
      intro c hc t ht
      rcases List.mem_cons.mp hc with rfl | hmem
      · cases ht
      · exact h2 c hmem t ht

theorem first_nonempty_some_ne_nil :
    ∀ (cells : List Cell) (s : List Char),
      CsvTxt.first_nonempty_str cells = some s → s ≠ [] := by
  intro cells
  induction cells with
  | nil => intro s h; simp [CsvTxt.first_nonempty_str] at h
  | cons c rest ih =>
    intro s h
    cases c with
    | str s' =>
      by_cases he : (strip s').isEmpty
      · exact ih s (by simpa [CsvTxt.first_nonempty_str, he] using h)
      · have hss : strip s' = s := by
          simpa [CsvTxt.first_nonempty_str, he] using h
        rw [← hss]
        intro hnil
        exact he (by simp [hnil])
    | num n => exact ih s (by simpa [CsvTxt.first_nonempty_str] using h)
    | boolean b => exact ih s (by simpa [CsvTxt.first_nonempty_str] using h)
    | missing => exact ih s (by simpa [CsvTxt.first_nonempty_str] using h)

theorem select_text_some_ne_nil (cols : List (List Char)) (mode : CsvTxt.TextMode)
    (cells : List Cell) (s : List Char) :
    CsvTxt.select_text cols mode cells = some s → s ≠ [] := by
  cases mode with
  | firstNonEmpty =>
    intro h
    exact first_nonempty_some_ne_nil cells s
      (by simpa [CsvTxt.select_text] using h)
  | named tc =>
    cases tc with
    | none => intro h; simp [CsvTxt.select_text] at h
    | some c =>
      intro h
      simp only [CsvTxt.select_text] at h
      cases hg : rowGet cols cells c with
      | none => rw [hg] at h; simp at h
      | some cell =>
        rw [hg] at h
        cases cell with
        | str s' =>
          by_cases he : (strip s').isEmpty
          · simp [he] at h
          · have hss : s' = s := by simpa [he] using h
            subst hss
            intro hnil
            exact he (by rw [hnil]; rfl)
        | num n => simp at h
        | boolean b => simp at h
        | missing => simp at h

/-!  Counting lemmas about the two conversion loops. -/

theorem loopApp_count :
    ∀ (rows : List (List Cell)) (cols : List (List Char))
      (fCol : Option (List Char)) (i : Nat) (used : List (List Char)),
      (CsvApp.loop cols fCol rows i used).2 = rows.length ∧
      (CsvApp.loop cols fCol rows i used).1.length +
        List.countP (fun r => (CsvApp.first_string_cell r).isNone) rows =
          rows.length := by
  intro rows
  induction rows with
  | nil => intro cols fCol i used; simp [CsvApp.loop]
  | cons r rs ih =>
    intro cols fCol i used
    cases hsel : CsvApp.first_string_cell r with
    | none =>
      have h1 := ih cols fCol (i + 1) used
      constructor
      · simp [CsvApp.loop, hsel, h1.1]
      · have h2 := h1.2
        simp only [CsvApp.loop, hsel]
        simp [List.countP_cons, hsel]
        omega
    | some text =>
      have h1 := ih cols fCol (i + 1)
        (CsvApp.ensure_unique (CsvApp.resolve_name cols r fCol i) used).2
      constructor
      · simp [CsvApp.loop, hsel, h1.1]
      · have h2 := h1.2
        simp only [CsvApp.loop, hsel]
        simp [List.countP_cons, hsel]
        omega

theorem loopTxt_count :
    ∀ (rows : List (List Cell)) (cols : List (List Char))
      (mode : CsvTxt.TextMode) (fCol : Option (List Char)) (pre suf : List Char)
      (i : Nat) (counts : List (List Char × Nat)),
      (CsvTxt.loop cols mode fCol pre suf rows i counts).2 = rows.length ∧
      (CsvTxt.loop cols mode fCol pre suf rows i counts).1.length +
        List.countP (fun r => (CsvTxt.select_text cols mode r).isNone) rows =
          rows.length := by
  intro rows
  induction rows with
  | nil => intro cols mode fCol pre suf i counts; simp [CsvTxt.loop]
  | cons r rs ih =>
    intro cols mode fCol pre suf i counts
    cases hsel : CsvTxt.select_text cols mode r with
    | none =>
      have h1 := ih cols mode fCol pre suf (i + 1) counts
      constructor
      · simp [CsvTxt.loop, hsel, h1.1]
      · have h2 := h1.2
        simp only [CsvTxt.loop, hsel]
        simp [List.countP_cons, hsel]
        omega
    | some text =>
      have hne : text ≠ [] := select_text_some_ne_nil cols mode r text hsel
      have hemp : text.isEmpty = false := by
        cases htext : text.isEmpty with
        | false => rfl
        | true => exact absurd (List.isEmpty_iff.mp htext) hne
      have h1 := ih cols mode fCol pre suf (i + 1)
        (CsvTxt.rename counts (CsvTxt.resolve_name pre suf cols r fCol i)).2
      constructor
      · simp [CsvTxt.loop, hsel, hemp, h1.1]
      · have h2 := h1.2
        simp only [CsvTxt.loop, hsel, hemp]
        simp [List.countP_cons, hsel]
        omega

/-!  Lemmas for the NamedColumn mode with a missing or unset column. -/

theorem select_named_none_of (cols : List (List Char)) (cells : List Cell)
    (tc : Option (List Char))
    (h : ∀ c, tc = some c → rowGet cols cells c = none) :
    CsvTxt.select_text cols (CsvTxt.TextMode.named tc) cells = none := by
  cases tc with
  | none => rfl
  | some c => simp [CsvTxt.select_text, h c rfl]

theorem loopTxt_named_absent :
    ∀ (rows : List (List Cell)) (cols : List (List Char))
      (tc : Option (List Char)) (fCol : Option (List Char)) (pre suf : List Char)
      (i : Nat) (counts : List (List Char × Nat)),
      (∀ r ∈ rows, ∀ c, tc = some c → rowGet cols r c = none) →
      (CsvTxt.loop cols (CsvTxt.TextMode.named tc) fCol pre suf rows i
        counts).1 = [] := by
  intro rows
  induction rows with
  | nil => intro cols tc fCol pre suf i counts _; rfl
  | cons r rs ih =>
    intro cols tc fCol pre suf i counts h
    have hsel := select_named_none_of cols r tc
      (h r (List.mem_cons_self _ _))
    simp only [CsvTxt.loop, hsel]
    exact ih cols tc fCol pre suf (i + 1) counts
      (fun r' hr' => h r' (List.mem_cons_of_mem _ hr'))

/-!  Character-level lemmas for the Filename Resolver guarantees. -/

theorem illegal_not_allowed :
    ∀ c, CsvApp.illegalApp c = true → CsvTxt.allowedTxt c = false := by
  intro c h
  simp only [CsvApp.illegalApp, Bool.or_eq_true, decide_eq_true_eq,
    or_assoc] at h
  rcases h with h|h|h|h|h|h|h|h|h|h|h|h <;> subst h <;> decide

theorem allowed_not_illegal :
    ∀ c, CsvTxt.allowedTxt c = true → CsvApp.illegalApp c = false := by
  intro c h
  cases hi : CsvApp.illegalApp c with
  | false => rfl
  | true => rw [illegal_not_allowed c hi] at h; cases h

theorem mem_natStr_allowed (n : Nat) :
    ∀ c ∈ natStr n, CsvTxt.allowedTxt c = true := by
  intro c hc
  rcases mem_natStr n c hc with ⟨d, hd, rfl⟩
  exact (digitChar_facts d hd).2.2

theorem mem_raw_base (cols : List (List Char)) (cells : List Cell)
    (fCol : Option (List Char)) (i : Nat) :
    ∀ c ∈ CsvTxt.raw_base cols cells fCol i, CsvTxt.allowedTxt c = true := by
  have hrow : ∀ c ∈ chars "row_" ++ natStr (i + 1), CsvTxt.allowedTxt c = true := by
    intro c hc
    rcases List.mem_append.mp hc with h | h
    · exact (by decide : ∀ x ∈ chars "row_", CsvTxt.allowedTxt x = true) c h
    · exact mem_natStr_allowed _ c h
  cases fCol with
  | none => exact hrow
  | some cn =>
    intro c hc
    simp only [CsvTxt.raw_base] at hc
    split at hc
    · exact hrow c hc
    · exact mem_sanitizeTxt _ c hc

theorem resolve_txt_not_illegal (pre suf : List Char) (cols : List (List Char))
    (cells : List Cell) (fCol : Option (List Char)) (i : Nat)
    (hpre : ∀ c ∈ pre, CsvApp.illegalApp c = false)
    (hsuf : ∀ c ∈ suf, CsvApp.illegalApp c = false) :
    ∀ c ∈ CsvTxt.resolve_name pre suf cols cells fCol i,
      CsvApp.illegalApp c = false := by
  intro c hc
  unfold CsvTxt.resolve_name at hc
  rcases mem_ensure_txt _ c hc with h | h
  · rcases List.mem_append.mp h with h1 | h1
    · rcases List.mem_append.mp h1 with h2 | h2
      · exact hpre c h2
      · exact allowed_not_illegal c (mem_raw_base _ _ _ _ c h2)
    · exact hsuf c h1
  · exact (by decide : ∀ x ∈ chars ".txt", CsvApp.illegalApp x = false) c h

theorem raw_base_some (cols : List (List Char)) (cells : List Cell)
    (c : List Char) (i : Nat) :
    CsvTxt.raw_base cols cells (some c) i =
      CsvTxt.sanitize_filename (strip (match rowGet cols cells c with
        | some cell => cellStr cell
        | none => [])) := by
  simp only [CsvTxt.raw_base]
  rw [if_neg (sanitizeTxt_ne_nil _)]

/-!  Claim theorems. -/

/-- C1: the claim states that in either variant no run ever emits a
duplicate filename.  The Counter-based variant (src/txt_to_csv.py, whose
comment above the Counter promises duplicate-free names) violates this:
on filename-column values `x`, `x`, `x_2` the run emits `x_2.txt` twice,
because renaming the second `x` to `x_2.txt` is not recorded against the
stem `x_2`.  This theorem evaluates the conversion loop at that failing
input and shows the emitted name list is not duplicate-free. -/
theorem c1_counter_duplicate :
    namesOf (CsvTxt.convert [chars "filename"] CsvTxt.TextMode.firstNonEmpty
      (some (chars "filename")) [] []
      [[Cell.str (chars "x")], [Cell.str (chars "x")],
        [Cell.str (chars "x_2")]]).1 =
      [chars "x.txt", chars "x_2.txt", chars "x_2.txt"] ∧
    ¬ (namesOf (CsvTxt.convert [chars "filename"] CsvTxt.TextMode.firstNonEmpty
      (some (chars "filename")) [] []
      [[Cell.str (chars "x")], [Cell.str (chars "x")],
        [Cell.str (chars "x_2")]]).1).Nodup := by decide

/-- C2 counterexample: the claim states a filename-column value
`report.TXT` resolves to `report.TXT`, but the src/app.py variant appends
`.txt` unconditionally, resolving it to `report.TXT.txt`. -/
theorem c2_report_txt_counterexample :
    CsvApp.resolve_name [chars "filename"] [Cell.str (chars "report.TXT")]
      (some (chars "filename")) 0 = chars "report.TXT.txt" ∧
    chars "report.TXT.txt" ≠ chars "report.TXT" := by decide

/-- C2 (amended): in the txt_to_csv variant, appending `.txt` is skipped
exactly when the name already ends with `.txt` case-insensitively, so the
result always ends with a case-insensitive `.txt`; in the app variant the
resolver always appends `.txt` to the filename-column value before
sanitizing, so its result ends with `.txt` as well, but `report.TXT`
becomes `report.TXT.txt` rather than staying `report.TXT`. -/
theorem c2_extension_amended :
    ∀ (s : List Char) (cols : List (List Char)) (cells : List Cell)
      (c : List Char) (i : Nat),
      ((chars ".txt").isSuffixOf (s.map Char.toLower) = true →
        CsvTxt.ensure_txt_suffix s = s) ∧
      ((chars ".txt").isSuffixOf (s.map Char.toLower) = false →
        CsvTxt.ensure_txt_suffix s = s ++ chars ".txt") ∧
      (chars ".txt").isSuffixOf
        ((CsvTxt.ensure_txt_suffix s).map Char.toLower) = true ∧
      (chars ".txt").isSuffixOf
        ((CsvApp.resolve_name cols cells (some c) i).map Char.toLower) = true :=
  fun s cols cells c i =>
    ⟨ensure_txt_skip s, ensure_txt_append s, ensure_txt_endswith s,
      resolveApp_endswith cols cells c i⟩

/-- C2 witness: the amended theorem applied at `report.TXT` (already
suffixed, kept) and at `a` (suffix appended). -/
theorem c2_extension_witness :
    CsvTxt.ensure_txt_suffix (chars "report.TXT") = chars "report.TXT" ∧
    CsvTxt.ensure_txt_suffix (chars "a") = chars "a" ++ chars ".txt" := by
  constructor
  · exact (c2_extension_amended (chars "report.TXT") [] [] [] 0).1 (by decide)
  · exact (c2_extension_amended (chars "a") [] [] [] 0).2.1 (by decide)

/-- C3 counterexample: the claim states the resolver sanitizes after
prefix/suffix concatenation, so its output never contains `/`.  In
src/txt_to_csv.py the prefix is concatenated after sanitization, so the
prefix `/` survives into the resolved name. -/
theorem c3_prefix_slash_counterexample :
    CsvTxt.resolve_name (chars "/") [] [chars "a"] [Cell.str (chars "hi")]
      none 0 = chars "/row_1.txt" ∧ '/' ∈ chars "/row_1.txt" := by decide

/-- C3 (amended): the resolver output is never empty in both variants;
it is free of the illegal characters unconditionally in the app variant,
and in the txt variant only under the extra assumption that the
user-supplied prefix and suffix are themselves free of them (they are
concatenated after sanitization). -/
theorem c3_resolver_sanitization_amended :
    ∀ (pre suf : List Char) (cols : List (List Char)) (cells : List Cell)
      (fCol : Option (List Char)) (i : Nat),
      CsvApp.resolve_name cols cells fCol i ≠ [] ∧
      (∀ c ∈ CsvApp.resolve_name cols cells fCol i,
        CsvApp.illegalApp c = false) ∧
      CsvTxt.resolve_name pre suf cols cells fCol i ≠ [] ∧
      ((∀ c ∈ pre, CsvApp.illegalApp c = false) →
        (∀ c ∈ suf, CsvApp.illegalApp c = false) →
        ∀ c ∈ CsvTxt.resolve_name pre suf cols cells fCol i,
          CsvApp.illegalApp c = false) :=
  fun pre suf cols cells fCol i =>
    ⟨sanitizeApp_ne_nil _, mem_sanitizeApp _, ensure_txt_ne_nil _,
      resolve_txt_not_illegal pre suf cols cells fCol i⟩

/-- C3 witness: the amended theorem at a concrete row with empty prefix
and suffix. -/
theorem c3_witness :
    (∀ c ∈ CsvTxt.resolve_name [] [] [chars "a"] [Cell.str (chars "hi")] none 0,
      CsvApp.illegalApp c = false) ∧
    CsvApp.resolve_name [chars "a"] [Cell.str (chars "hi")] none 0 ≠ [] := by
  constructor
  · exact (c3_resolver_sanitization_amended [] [] [chars "a"]
      [Cell.str (chars "hi")] none 0).2.2.2 (by simp) (by simp)
  · exact (c3_resolver_sanitization_amended [] [] [chars "a"]
      [Cell.str (chars "hi")] none 0).1

/-- C4 counterexample: the claim states that NamedColumn mode with a
column absent from the table fails with ConfigError before any row is
processed and produces no archive.  The code has no such check: the run
completes, iterates the row (the reported row count is 1), and produces
an (empty) archive that is offered for download. -/
theorem c4_no_failure_counterexample :
    CsvTxt.convert [chars "a"] (CsvTxt.TextMode.named (some (chars "zzz")))
      none [] [] [[Cell.str (chars "hello")]] = ([], 1) := by decide

/-- C4 (amended): no ConfigError exists.  When textMode is NamedColumn
and textColumn is unset, or set to a name whose lookup misses in every
row, the per-row lookup yields nothing, every row is skipped, and the run
completes normally with an empty entry list while still iterating all
rows. -/
theorem c4_absent_column_amended :
    ∀ (cols : List (List Char)) (rows : List (List Cell))
      (tc : Option (List Char)) (fCol : Option (List Char)) (pre suf : List Char),
      (tc = none ∨ ∃ c, tc = some c ∧ ∀ r ∈ rows, rowGet cols r c = none) →
      (CsvTxt.convert cols (CsvTxt.TextMode.named tc) fCol pre suf rows).1 = [] ∧
      (CsvTxt.convert cols (CsvTxt.TextMode.named tc) fCol pre suf rows).2 =
        rows.length := by
  intro cols rows tc fCol pre suf h
  have h' : ∀ r ∈ rows, ∀ c, tc = some c → rowGet cols r c = none := by
    rcases h with rfl | ⟨c, rfl, hc⟩
    · intro r _ c hcon; cases hcon
    · intro r hr c' hc'
      injection hc' with he
      subst he
      exact hc r hr
  exact ⟨loopTxt_named_absent rows cols tc fCol pre suf 0 [] h',
    (loopTxt_count rows cols _ fCol pre suf 0 []).1⟩

/-- C4 witness: the amended theorem at a one-row table whose columns do
not contain the requested text column. -/
theorem c4_witness :
    (CsvTxt.convert [chars "a"] (CsvTxt.TextMode.named (some (chars "zzz")))
      none [] [] [[Cell.str (chars "hello")]]).1 = [] ∧
    (CsvTxt.convert [chars "a"] (CsvTxt.TextMode.named (some (chars "zzz")))
      none [] [] [[Cell.str (chars "hello")]]).2 = 1 :=
  c4_absent_column_amended [chars "a"] [[Cell.str (chars "hello")]]
    (some (chars "zzz")) none [] []
    (Or.inr ⟨chars "zzz", rfl, by decide⟩)

/-- C5 counterexample: the claim states a missing filename cell falls
back to `row_1`; the txt_to_csv variant instead stringifies the missing
cell to `nan`. -/
theorem c5_missing_cell_counterexample :
    CsvTxt.raw_base [chars "filename"] [Cell.missing]
      (some (chars "filename")) 0 = chars "nan" ∧
    chars "nan" ≠ chars "row_" ++ natStr 1 := by decide

/-- C5 (amended): the `row_N` fallback is used exactly when the filename
column is unset.  When it is set, the base name is the sanitized, trimmed
string form of the cell even when the cell is missing (a missing cell
stringifies to `nan`); the `or row_N` fallback in the source is dead
because the sanitizer never returns an empty name.  The app variant
appends `.txt` directly to the stringified cell with no separate trim. -/
theorem c5_raw_base_amended :
    ∀ (cols : List (List Char)) (cells : List Cell) (c : List Char) (i : Nat),
      CsvTxt.raw_base cols cells none i = chars "row_" ++ natStr (i + 1) ∧
      CsvTxt.raw_base cols cells (some c) i =
        CsvTxt.sanitize_filename (strip (match rowGet cols cells c with
          | some cell => cellStr cell
          | none => [])) ∧
      cellStr Cell.missing = chars "nan" ∧
      CsvApp.raw_name cols cells (some c) i =
        cellStr ((rowGet cols cells c).getD Cell.missing) ++ chars ".txt" :=
  fun cols cells c i => ⟨rfl, raw_base_some cols cells c i, rfl, rfl⟩

/-- C6 counterexample: the claim states the selector returns the cell
value itself; the txt_to_csv variant returns the trimmed value. -/
theorem c6_trimmed_return_counterexample :
    CsvTxt.first_nonempty_str [Cell.str (chars " hi ")] = some (chars "hi") ∧
    chars "hi" ≠ chars " hi " := by decide

/-- C6 (amended): both selectors scan the cells in column order and
succeed exactly on the first string cell that is non-empty after
trimming, skipping numeric, boolean, and missing cells; the app variant
returns that cell value itself while the txt variant returns its trimmed
form; both return nothing exactly when no such cell exists. -/
theorem c6_selector_amended :
    ∀ cells : List Cell,
      CsvTxt.first_nonempty_str cells =
        (CsvApp.first_string_cell cells).map strip ∧
      (CsvApp.first_string_cell cells = none ↔
        ∀ c ∈ cells, ∀ s, c = Cell.str s → strip s = []) ∧
      (∀ s, CsvApp.first_string_cell cells = some s →
        strip s ≠ [] ∧ ∃ l₁ l₂, cells = l₁ ++ Cell.str s :: l₂ ∧
          ∀ c ∈ l₁, ∀ t, c = Cell.str t → strip t = []) :=
  fun cells => ⟨first_nonempty_eq_map_strip cells,
    first_string_cell_none_iff cells, first_string_cell_some cells⟩

/-- C6 witness: the amended theorem applied at a row whose first cell is
numeric and whose second cell is the string `" hi "`. -/
theorem c6_witness :
    strip (chars " hi ") ≠ [] ∧
    ∃ l₁ l₂, [Cell.num 1, Cell.str (chars " hi ")] =
      l₁ ++ Cell.str (chars " hi ") :: l₂ ∧
      ∀ c ∈ l₁, ∀ t, c = Cell.str t → strip t = [] :=
  (c6_selector_amended [Cell.num 1, Cell.str (chars " hi ")]).2.2
    (chars " hi ") (by decide)

/-- C7 counterexample: the claim states the first row whose resolved name
has a given base filename always receives it unsuffixed.  In the app
variant on filename values `x`, `x`, `x_2`, the third row is the first
row whose resolved name is `x_2.txt`, yet it is emitted as `x_2_2.txt`
because the rename of the second row already emitted `x_2.txt`. -/
theorem c7_first_occurrence_counterexample :
    (CsvApp.convert [chars "filename"] (some (chars "filename"))
      [[Cell.str (chars "x")], [Cell.str (chars "x")],
        [Cell.str (chars "x_2")]]).1 =
      [⟨chars "x.txt", chars "x.txt", chars "x"⟩,
       ⟨chars "x.txt", chars "x_2.txt", chars "x"⟩,
       ⟨chars "x_2.txt", chars "x_2_2.txt", chars "x_2"⟩] ∧
    chars "x_2_2.txt" ≠ chars "x_2.txt" := by decide

/-- C7 (amended): a row's name passes through unsuffixed precisely when
no earlier emission blocks it: in the app variant exactly when the
resolved name is not in the set of already-emitted names (which may
contain names produced by earlier renames), and in the txt variant
exactly when the stem of the resolved name has not been counted for an
earlier emitted row. -/
theorem c7_first_occurrence_amended :
    ∀ (name : List Char) (used : List (List Char))
      (counts : List (List Char × Nat)) (fname : List Char),
      ((CsvApp.ensure_unique name used).1 = name ↔ name ∉ used) ∧
      ((CsvTxt.rename counts fname).1 = fname ↔
        CsvTxt.cGet counts (splitExt fname).1 = 0) :=
  fun name used counts fname =>
    ⟨ensure_unique_eq_iff name used, rename_eq_iff counts fname⟩

/-- C8: in both variants every row of the table is iterated, and the
number of archive entries written equals the number of rows minus the
number of rows on which the text selector returned nothing. -/
theorem c8_skip_accounting :
    ∀ (cols : List (List Char)) (fCol : Option (List Char))
      (mode : CsvTxt.TextMode) (pre suf : List Char) (rows : List (List Cell)),
      (CsvApp.convert cols fCol rows).2 = rows.length ∧
      (CsvApp.convert cols fCol rows).1.length =
        rows.length -
          List.countP (fun r => (CsvApp.first_string_cell r).isNone) rows ∧
      (CsvTxt.convert cols mode fCol pre suf rows).2 = rows.length ∧
      (CsvTxt.convert cols mode fCol pre suf rows).1.length =
        rows.length -
          List.countP (fun r => (CsvTxt.select_text cols mode r).isNone)
            rows := by
  intro cols fCol mode pre suf rows
  have h1 := loopApp_count rows cols fCol 0 []
  have h2 := loopTxt_count rows cols mode fCol pre suf 0 []
  unfold CsvApp.convert CsvTxt.convert
  refine ⟨h1.1, ?_, h2.1, ?_⟩
  · have := h1.2; omega
  · have := h2.2; omega

/-- C9: both variants' filename sanitizers are idempotent. -/
theorem c9_sanitize_idempotent :
    ∀ l : List Char,
      CsvApp.sanitize_filename (CsvApp.sanitize_filename l) =
        CsvApp.sanitize_filename l ∧
      CsvTxt.sanitize_filename (CsvTxt.sanitize_filename l) =
        CsvTxt.sanitize_filename l :=
  fun l => ⟨sanitizeApp_idem l, sanitizeTxt_idem l⟩

/-- C10: the probe loop of `ensure_unique` always finds an unused
candidate within `|used| + 1` steps (the candidates are pairwise
distinct, so a finite used-set cannot exhaust them), hence the function
is total and its result is never an already-used name. -/
theorem c10_ensure_unique_total :
    ∀ (name : List Char) (used : List (List Char)),
      (∃ c, CsvApp.probeFrom (splitExt name).1 (splitExt name).2 used 2
        (used.length + 1) = some c) ∧
      (CsvApp.ensure_unique name used).1 ∉ used :=
  fun name used =>
    ⟨probeFrom_total _ _ used (used.length + 1) 2
      (exists_cand_not_mem _ _ used 2), ensure_unique_not_mem name used⟩
